import Mathlib

/-!
# aggregate-panels: a verification development

Shallow embedding of `src/main.go` (command `aggregate-panels`).

* The Go `map[string]measurable` is an association list with unique keys.  Go
  iterates a map in an unspecified order; every statement below about the
  output rows is phrased through membership and is therefore independent of
  the order in which the rows are written.
* `float64` arithmetic, `strconv.ParseFloat` and `strconv.FormatFloat` belong
  to the Go runtime and standard library.  They are taken as a parameter
  (`Float64Ops`); every general theorem holds for all interpretations.
* `encoding/csv` is likewise a parameter (`CsvRead`): a function from the
  configured `Comma` and the bytes of a file to the sequence of records the
  successive `Read` calls return, followed by `io.EOF` or by an error.
* `log.Fatal` and run-time panics terminate the process; `main` returns
  `Except Abort Output`, and the output exists only in the `ok` case because
  the output file is created after the file loop.
-/

namespace AggregatePanels

/-! ## Library parameters -/

/-- Operations on Go `float64` values used by the program. `parseFloat s` is
`strconv.ParseFloat(s, 64)` (`none` when it returns an error) and
`formatFloat x prec` is `strconv.FormatFloat(x, 'f', prec, 64)`. -/
structure Float64Ops (F : Type) where
  zero : F
  add : F → F → F
  div : F → F → F
  ofInt : Nat → F
  parseFloat : String → Option F
  formatFloat : F → Nat → String

/-- What a `csv.Reader` yields for one file: the records returned by the
successive calls of `Read`, then `io.EOF` (`err = none`) or another error. -/
structure Source where
  records : List (List String)
  err : Option String
deriving DecidableEq, Repr

/-- The `encoding/csv` reader as a function of its `Comma` and the file bytes. -/
abbrev CsvRead := Char → String → Source

/-! ## Data model -/

/-- Command-line flags (`flag.String` declarations of the source). -/
structure Flags where
  panel : String
  filesDir : String
  sep : String
  output : String
deriving DecidableEq, Repr

/-- Flag values when no option is given on the command line. -/
def defaultFlags : Flags := ⟨"", "", "\t", ""⟩

/-- Go `type measurable struct`. -/
structure measurable (F : Type) where
  weights : List F
  features : String
deriving DecidableEq, Repr

/-- Go `map[string]measurable`. -/
abbrev PanelistMap (F : Type) := List (String × measurable F)

/-- One entry of the directory listing returned by `ioutil.ReadDir`;
`content = none` when the file cannot be opened (the error of `os.Open` is
discarded by the program and the first `Read` then fails). -/
structure DirEntry where
  name : String
  content : Option String
deriving DecidableEq, Repr

/-- Ways in which the run terminates without output. -/
inductive Abort where
  /-- `log.Fatal(err)` after the header `Read` (also on `io.EOF`). -/
  | headerRead (err : String)
  /-- `log.Fatal(err)` after a failing `Read` in the row loop. -/
  | rowRead (err : String)
  /-- `log.Fatal(err)` after `strconv.ParseFloat`. -/
  | parseFloat (input : String)
  /-- Go run-time panic `index out of range [index] with length length`. -/
  | indexOutOfRange (index length : Nat)
deriving DecidableEq, Repr

/-- Whether the termination is one the program reports itself through
`log.Fatal`, as opposed to a run-time panic. -/
def Abort.isLogFatal : Abort → Bool
  | .headerRead _ => true
  | .rowRead _ => true
  | .parseFloat _ => true
  | .indexOutOfRange _ _ => false

/-- Local variables of `main` that live across the file loop. -/
structure State (F : Type) where
  days : Nat
  headerRow : List String
  panelists : PanelistMap F
deriving DecidableEq, Repr

/-- One row written by the final loop of `main` (three fields). -/
structure OutRow where
  key : String
  weight : String
  features : String
deriving DecidableEq, Repr

/-- Everything written to the output file. -/
structure Output where
  path : String
  headerLine : String
  rows : List OutRow
deriving DecidableEq, Repr

deriving instance DecidableEq for Except

/-! ## Operations -/

/-- Go `func average(vals []float64) float64`. -/
def average {F : Type} (A : Float64Ops F) (vals : List F) : F :=
  A.div (vals.foldl (fun sum val => A.add sum val) A.zero) (A.ofInt vals.length)

/-- Map read `panelists[k]`: the zero value when the key is absent. -/
def mapGet {F : Type} : PanelistMap F → String → measurable F
  | [], _ => ⟨[], ""⟩
  | (k', m) :: rest, k => if k' = k then m else mapGet rest k

/-- Map write `panelists[k] = m`. -/
def mapSet {F : Type} : PanelistMap F → String → measurable F → PanelistMap F
  | [], k, m => [(k, m)]
  | (k', m') :: rest, k, m =>
    if k' = k then (k, m) :: rest else (k', m') :: mapSet rest k m

/-- Go `strings.HasPrefix(s, p)`. -/
def HasPrefix (s p : String) : Bool := p.toList.isPrefixOf s.toList

/-- Replace the first occurrence of `old` by `new` in a character sequence. -/
def replaceFirst (old new : Char) : List Char → List Char
  | [] => []
  | c :: cs => if c = old then new :: cs else c :: replaceFirst old new cs

/-- Go `strings.Replace(s, ",", ".", 1)`. -/
def normalizeWeight (s : String) : String := ⟨replaceFirst ',' '.' s.toList⟩

/-- Go string comparison `a < b` (lexicographic on code units). -/
def lessChars : List Char → List Char → Bool
  | _, [] => false
  | [], _ :: _ => true
  | a :: as, b :: bs =>
    if a.toNat < b.toNat then true
    else if b.toNat < a.toNat then false
    else lessChars as bs

/-- The comparison passed to `sort.Slice`: `files[i].Name() < files[j].Name()`. -/
def less (a b : DirEntry) : Bool := lessChars a.name.toList b.name.toList

/-- Insert an entry into a list sorted by name. -/
def insertSorted (a : DirEntry) : List DirEntry → List DirEntry
  | [] => [a]
  | b :: l => if less a b then a :: b :: l else b :: insertSorted a l

/-- Go `sort.Slice(files, less)`: the listing in ascending name order.  The
names of the entries of one directory are pairwise distinct, so the sorted
order does not depend on the sorting algorithm. -/
def sortFiles : List DirEntry → List DirEntry
  | [] => []
  | a :: l => insertSorted a (sortFiles l)

/-- Body of the row loop for one record `line`. -/
def processLine {F : Type} (A : Float64Ops F) (panelists : PanelistMap F)
    (line : List String) : Except Abort (PanelistMap F) :=
  match (line)[1]? with
  | none => .error (.indexOutOfRange 1 line.length)
  | some raw =>
    let wgtStr := normalizeWeight raw
    match A.parseFloat wgtStr with
    | none => .error (.parseFloat wgtStr)
    | some wgt =>
      let panelist := line.headD ""
      let feats := String.intercalate "\t" (line.drop 2)
      let measured := mapGet panelists panelist
      .ok (mapSet panelists panelist ⟨measured.weights ++ [wgt], feats⟩)

/-- The row loop `for { line, err := csvReader.Read() ... }` over the records
that precede the end of the file. -/
def processLines {F : Type} (A : Float64Ops F) :
    PanelistMap F → List (List String) → Except Abort (PanelistMap F)
  | panelists, [] => .ok panelists
  | panelists, line :: rest =>
    match processLine A panelists line with
    | .error e => .error e
    | .ok panelists' => processLines A panelists' rest

/-- Opening a file and wrapping it in a `csv.Reader` with the given `Comma`. -/
def openReader (csv : CsvRead) (comma : Char) (file : DirEntry) : Source :=
  match file.content with
  | none => ⟨[], some "invalid argument"⟩
  | some text => csv comma text

/-- Body of `for _, file := range files`. -/
def processFile {F : Type} (A : Float64Ops F) (csv : CsvRead) (st : State F)
    (file : DirEntry) : Except Abort (State F) :=
  if HasPrefix file.name "." then .ok st
  else
    let src := openReader csv '\t' file
    match src.records with
    | [] => .error (.headerRead (src.err.getD "EOF"))
    | header :: lines =>
      let headerRow := if st.headerRow.length = 0 then header else st.headerRow
      match processLines A st.panelists lines with
      | .error e => .error e
      | .ok panelists =>
        match src.err with
        | some e => .error (.rowRead e)
        | none => .ok ⟨st.days + 1, headerRow, panelists⟩

/-- The file loop of `main`. -/
def processFiles {F : Type} (A : Float64Ops F) (csv : CsvRead) :
    State F → List DirEntry → Except Abort (State F)
  | st, [] => .ok st
  | st, file :: rest =>
    match processFile A csv st file with
    | .error e => .error e
    | .ok st' => processFiles A csv st' rest

/-- State of `main` before the file loop. -/
def initState (F : Type) : State F := ⟨0, [], []⟩

/-- The part of `main` up to the end of the file loop: sort, then merge. -/
def mergeAll {F : Type} (A : Float64Ops F) (csv : CsvRead)
    (listing : List DirEntry) : Except Abort (State F) :=
  processFiles A csv (initState F) (sortFiles listing)

/-- One iteration of `for panelist, measurements := range panelists`. -/
def writeRow {F : Type} (A : Float64Ops F) (entry : String × measurable F) : OutRow :=
  ⟨entry.1, A.formatFloat (average A entry.2.weights) 5, entry.2.features⟩

/-- The writing part of `main`. -/
def writeOutput {F : Type} (A : Float64Ops F) (flags : Flags) (st : State F) : Output :=
  ⟨flags.output, String.intercalate "\t" st.headerRow, st.panelists.map (writeRow A)⟩

/-- Go `func main()`, for a readable directory with the given listing. -/
def main {F : Type} (A : Float64Ops F) (csv : CsvRead) (flags : Flags)
    (listing : List DirEntry) : Except Abort Output :=
  match mergeAll A csv listing with
  | .error e => .error e
  | .ok st => .ok (writeOutput A flags st)

/-- Bytes of one output row: the four `WriteString` calls of the final loop. -/
def OutRow.text (r : OutRow) : String :=
  r.key ++ "\t" ++ r.weight ++ "\t" ++ r.features ++ "\n"

/-- Bytes of the output file. -/
def Output.text (o : Output) : String :=
  o.headerLine ++ "\n" ++ String.join (o.rows.map OutRow.text)

/-! ## Vocabulary for the statements -/

/-- An entry the file loop does not skip: its name has no leading dot. -/
def notHidden (file : DirEntry) : Bool := !HasPrefix file.name "."

/-- The entries the file loop does not skip, in the order it visits them. -/
def processed (listing : List DirEntry) : List DirEntry :=
  (sortFiles listing).filter notHidden

/-- Header record of a file as the program reads it (first `Read`). -/
def headerOf (csv : CsvRead) (file : DirEntry) : Option (List String) :=
  (openReader csv '\t' file).records.head?

/-- Data rows of a file as the program reads them (all records after the
header). -/
def dataRows (csv : CsvRead) (file : DirEntry) : List (List String) :=
  (openReader csv '\t' file).records.tail

/-- Column 0 of a record. -/
def rowKey (line : List String) : String := line.headD ""

/-- The records of a list that carry the key `k`. -/
def rowsOf (k : String) (rows : List (List String)) : List (List String) :=
  rows.filter (fun line => rowKey line = k)

/-- All data rows of the processed files, in processing order. -/
def observedRows (csv : CsvRead) (listing : List DirEntry) : List (List String) :=
  (processed listing).flatMap (dataRows csv)

/-- The weight a data row contributes: column 1, normalised and parsed. -/
def parsedWeight {F : Type} (A : Float64Ops F) (line : List String) : Option F :=
  ((line)[1]?).bind (fun raw => A.parseFloat (normalizeWeight raw))

/-- Feature payload of a record: `strings.Join(line[2:], "\t")`. -/
def rowFeatures (line : List String) : String := String.intercalate "\t" (line.drop 2)

/-- Effect of one successfully processed data row on the map. -/
def mergeRow {F : Type} (A : Float64Ops F) (t : PanelistMap F) (line : List String) :
    PanelistMap F :=
  mapSet t (rowKey line)
    ⟨(mapGet t (rowKey line)).weights ++ (parsedWeight A line).toList, rowFeatures line⟩

/-- The parsed weights of the data rows carrying `k`, in processing order. -/
def keyWeights {F : Type} (A : Float64Ops F) (csv : CsvRead) (listing : List DirEntry)
    (k : String) : List F :=
  (rowsOf k (observedRows csv listing)).filterMap (parsedWeight A)

/-- The processed files in which the key `k` appears on some data row. -/
def filesWith (csv : CsvRead) (listing : List DirEntry) (k : String) : List DirEntry :=
  (processed listing).filter (fun f => !(rowsOf k (dataRows csv f)).isEmpty)

/-- Keys of the output rows, in the order written. -/
def Output.keys (o : Output) : List String := o.rows.map OutRow.key

/-! ## Concrete library instances for evaluation

The general theorems quantify over `Float64Ops` and `CsvRead`.  To evaluate the
program on concrete inputs two instances are fixed: exact arithmetic on
fractions with plain decimal syntax (it agrees with `float64` wherever the
IEEE operations involved are exact, as for the small dyadic values used
below), and a reader for text without quote characters and carriage returns,
on which `encoding/csv` returns the non-empty lines split at `Comma`. -/

/-- A fraction `num / den`; `den = 0` stands for the non-finite results of a
division by zero. -/
structure Frac where
  num : Int
  den : Nat
deriving DecidableEq, Repr

/-- Value of a string of decimal digits (`some 0` for the empty string). -/
def digitsValue : List Char → Option Nat
  | cs => cs.foldl (fun acc c =>
      match acc with
      | none => none
      | some v => if 48 ≤ c.toNat ∧ c.toNat ≤ 57 then some (10 * v + (c.toNat - 48)) else none)
      (some 0)

/-- Plain decimal syntax: optional sign, digits, optional point and digits. -/
def parseDecimal (s : String) : Option Frac :=
  let cs := s.toList
  let neg := cs.head? = some '-'
  let body := if cs.head? = some '-' ∨ cs.head? = some '+' then cs.tail else cs
  let ip := body.takeWhile (fun c => c ≠ '.')
  let fp := (body.dropWhile (fun c => c ≠ '.')).drop 1
  if ip.isEmpty ∧ fp.isEmpty then none
  else
    match digitsValue ip, digitsValue fp with
    | some i, some f =>
      let n : Int := Int.ofNat (i * 10 ^ fp.length + f)
      some ⟨if neg then -n else n, 10 ^ fp.length⟩
    | _, _ => none

/-- Fixed-point rendering with `prec` digits after the point, rounding half to
even; the non-finite values are rendered as Go renders them. -/
def formatFixed (x : Frac) (prec : Nat) : String :=
  if x.den = 0 then
    if x.num = 0 then "NaN" else if 0 < x.num then "+Inf" else "-Inf"
  else
    let scaled := x.num.natAbs * 10 ^ prec
    let q := scaled / x.den
    let r := scaled % x.den
    let n := if x.den < 2 * r ∨ (2 * r = x.den ∧ q % 2 = 1) then q + 1 else q
    let sign := if x.num < 0 then "-" else ""
    let frac := Nat.repr (n % 10 ^ prec)
    let pad := String.mk (List.replicate (prec - frac.length) '0')
    if prec = 0 then sign ++ Nat.repr n
    else sign ++ Nat.repr (n / 10 ^ prec) ++ "." ++ pad ++ frac

/-- Exact arithmetic on fractions as an interpretation of `Float64Ops`. -/
def exactOps : Float64Ops Frac where
  zero := ⟨0, 1⟩
  add := fun a b => ⟨a.num * b.den + b.num * a.den, a.den * b.den⟩
  div := fun a b => ⟨a.num * b.den * b.num.sign, a.den * b.num.natAbs⟩
  ofInt := fun n => ⟨n, 1⟩
  parseFloat := parseDecimal
  formatFloat := formatFixed

/-- Split a character sequence at every occurrence of `sep`. -/
def splitChars (sep : Char) : List Char → List (List Char)
  | [] => [[]]
  | c :: cs =>
    if c = sep then [] :: splitChars sep cs
    else
      match splitChars sep cs with
      | [] => [[c]]
      | h :: t => (c :: h) :: t

/-- Reader for text without quotes: the non-empty lines, split at `comma`. -/
def plainCsv : CsvRead := fun comma text =>
  ⟨((splitChars '\n' text.toList).filter (fun l => l ≠ [])).map
      (fun l => (splitChars comma l).map String.mk), none⟩

/-- The end-to-end scenario of the specification: two day files. -/
def scenario : List DirEntry :=
  [⟨"day2.tsv", some "id\twgt\tfeat\nA\t3,0\tz\n"⟩,
   ⟨".DS_Store", some "\x00\x01"⟩,
   ⟨"day1.tsv", some "id\twgt\tfeat\nA\t1,0\tx\nB\t2,0\ty\n"⟩]

/-- A directory in which one file carries the key `A` on two data rows. -/
def dupListing : List DirEntry :=
  [⟨"day1.tsv", some "id\twgt\tfeat\nA\t1,0\tx\nA\t3,0\ty\n"⟩]

/-- What the program writes for `scenario`. -/
def scenarioOutput : Output :=
  ⟨"", "id\twgt\tfeat", [⟨"A", "2.00000", "z"⟩, ⟨"B", "2.00000", "y"⟩]⟩

/-- The state of `main` after the file loop on `dupListing`. -/
def dupState : State Frac :=
  ⟨1, ["id", "wgt", "feat"], [("A", ⟨[⟨10, 10⟩, ⟨30, 10⟩], "y"⟩)]⟩

/-- The state of `main` after the file loop on `scenario`. -/
def scenarioState : State Frac :=
  ⟨2, ["id", "wgt", "feat"],
    [("A", ⟨[⟨10, 10⟩, ⟨30, 10⟩], "z"⟩), ("B", ⟨[⟨20, 10⟩], "y"⟩)]⟩

/-- The first processed file of `scenario`. -/
def day1 : DirEntry := ⟨"day1.tsv", some "id\twgt\tfeat\nA\t1,0\tx\nB\t2,0\ty\n"⟩

/-- The second processed file of `scenario`. -/
def day2 : DirEntry := ⟨"day2.tsv", some "id\twgt\tfeat\nA\t3,0\tz\n"⟩

/-- A directory whose second file has an unparseable weight on its last row. -/
def badWeightListing : List DirEntry :=
  [⟨"day1.tsv", some "id\twgt\tfeat\nA\t1,0\tx\n"⟩,
   ⟨"day2.tsv", some "id\twgt\tfeat\nA\t3,0\tz\nB\tn/a\ty\n"⟩]

/-- A comma-separated period file. -/
def commaListing : List DirEntry :=
  [⟨"day1.csv", some "id,wgt,feat\nA,1.0,x\n"⟩]

/-- Flags of a run started with `--sep ,`. -/
def commaFlags : Flags := ⟨"tv", "in", ",", "out.csv"⟩

/-- A directory whose later file has a header different from the first. -/
def headerListing : List DirEntry :=
  [⟨"day2.tsv", some "ID\tW\tF\tG\nA\t3,0\tz\n"⟩,
   ⟨"day1.tsv", some "id\twgt\tfeat\nA\t1,0\tx\n"⟩]

/-- A tab-separated period file, used with `--sep ,`. -/
def tabListing : List DirEntry :=
  [⟨"day1.tsv", some "id\twgt\tfeat\nA\t1.0\tx\n"⟩]

/-- The two-day scenario with further dot-prefixed entries: one with an
unparseable weight, one that cannot be opened. -/
def hiddenListing : List DirEntry :=
  [⟨".bad.tsv", some "id\twgt\nA\tn/a\nB\n"⟩, day2, ⟨".gone", none⟩, day1]

/-- The readers to which the header statement applies: every record has at
least one field, as is the case for every record `encoding/csv` returns. -/
def NonEmptyRecords (csv : CsvRead) : Prop :=
  ∀ comma text, ∀ r ∈ (csv comma text).records, r ≠ []

/-- A directory whose file has a data row with a single column. -/
def shortRowListing : List DirEntry :=
  [⟨"day1.tsv", some "id\twgt\tfeat\nA\t1,0\tx\nA\n"⟩]

/-! ## The map -/

theorem mapGet_mapSet_same {F : Type} (t : PanelistMap F) (k : String) (m : measurable F) :
    mapGet (mapSet t k m) k = m := by
  induction t with
  | nil => simp [mapSet, mapGet]
  | cons e rest ih =>
    obtain ⟨k', m'⟩ := e
    by_cases h : k' = k
    · simp [mapSet, mapGet, h]
    · simp [mapSet, mapGet, h, ih]

theorem mapGet_mapSet_other {F : Type} (t : PanelistMap F) (k k' : String) (m : measurable F)
    (h : k ≠ k') : mapGet (mapSet t k m) k' = mapGet t k' := by
  induction t with
  | nil => simp [mapSet, mapGet, h]
  | cons e rest ih =>
    obtain ⟨k₀, m₀⟩ := e
    by_cases h₀ : k₀ = k
    · subst h₀
      simp [mapSet, mapGet, h]
    · by_cases h₁ : k₀ = k'
      · subst h₁
        simp [mapSet, mapGet, h₀]
      · simp [mapSet, mapGet, h₀, h₁, ih]

theorem mem_keys_mapSet {F : Type} (t : PanelistMap F) (k k' : String) (m : measurable F) :
    k' ∈ (mapSet t k m).map Prod.fst ↔ k' = k ∨ k' ∈ t.map Prod.fst := by
  induction t with
  | nil => simp [mapSet]
  | cons e rest ih =>
    obtain ⟨k₀, m₀⟩ := e
    by_cases h₀ : k₀ = k
    · subst h₀
      simp [mapSet]
    · simp only [mapSet, h₀, if_false, List.map_cons, List.mem_cons, ih]
      tauto

theorem nodup_keys_mapSet {F : Type} (t : PanelistMap F) (k : String) (m : measurable F)
    (h : (t.map Prod.fst).Nodup) : ((mapSet t k m).map Prod.fst).Nodup := by
  induction t with
  | nil => simp [mapSet]
  | cons e rest ih =>
    obtain ⟨k₀, m₀⟩ := e
    simp only [List.map_cons, List.nodup_cons] at h
    by_cases h₀ : k₀ = k
    · subst h₀
      simp only [mapSet, if_true, List.map_cons, List.nodup_cons]
      exact h
    · simp only [mapSet, h₀, if_false, List.map_cons, List.nodup_cons]
      refine ⟨fun hc => ?_, ih h.2⟩
      rcases (mem_keys_mapSet rest k k₀ m).mp hc with hc | hc
      · exact h₀ hc
      · exact h.1 hc

theorem mapGet_of_mem {F : Type} (t : PanelistMap F) (k : String) (m : measurable F)
    (hnd : (t.map Prod.fst).Nodup) (hm : (k, m) ∈ t) : mapGet t k = m := by
  induction t with
  | nil => simp at hm
  | cons e rest ih =>
    obtain ⟨k₀, m₀⟩ := e
    simp only [List.map_cons, List.nodup_cons] at hnd
    rcases List.mem_cons.mp hm with heq | hrest
    · cases heq
      simp [mapGet]
    · have hk : k ∈ rest.map Prod.fst := List.mem_map.mpr ⟨(k, m), hrest, rfl⟩
      have hne : k₀ ≠ k := fun hc => hnd.1 (hc ▸ hk)
      simp [mapGet, hne, ih hnd.2 hrest]

theorem mem_of_mem_keys {F : Type} (t : PanelistMap F) (k : String)
    (hk : k ∈ t.map Prod.fst) : (k, mapGet t k) ∈ t := by
  induction t with
  | nil => simp at hk
  | cons e rest ih =>
    obtain ⟨k₀, m₀⟩ := e
    by_cases h₀ : k₀ = k
    · subst h₀
      simp [mapGet]
    · have : k ∈ rest.map Prod.fst := by
        simp only [List.map_cons, List.mem_cons] at hk
        exact hk.resolve_left (fun hc => h₀ hc.symm)
      simp only [mapGet, h₀, if_false]
      exact List.mem_cons_of_mem _ (ih this)

/-! ## The row loop -/

theorem processLine_eq {F : Type} (A : Float64Ops F) (t : PanelistMap F) (line : List String) :
    processLine A t line =
      match (line)[1]? with
      | none => .error (.indexOutOfRange 1 line.length)
      | some raw =>
        match A.parseFloat (normalizeWeight raw) with
        | none => .error (.parseFloat (normalizeWeight raw))
        | some wgt =>
          .ok (mapSet t (rowKey line) ⟨(mapGet t (rowKey line)).weights ++ [wgt],
            rowFeatures line⟩) := by
  unfold processLine rowKey rowFeatures
  rfl

theorem processLine_ok {F : Type} (A : Float64Ops F) (t t' : PanelistMap F)
    (line : List String) (h : processLine A t line = .ok t') :
    (parsedWeight A line).isSome = true ∧ t' = mergeRow A t line := by
  rw [processLine_eq] at h
  unfold mergeRow parsedWeight
  cases h1 : (line)[1]? with
  | none => simp [h1] at h
  | some raw =>
    simp only [h1] at h
    cases h2 : A.parseFloat (normalizeWeight raw) with
    | none => simp [h2] at h
    | some w =>
      simp only [h2] at h
      injection h with h
      simp [h2, ← h]

theorem processLine_of_parsed {F : Type} (A : Float64Ops F) (t : PanelistMap F)
    (line : List String) (h : (parsedWeight A line).isSome = true) :
    processLine A t line = .ok (mergeRow A t line) := by
  rw [processLine_eq]
  unfold mergeRow
  unfold parsedWeight at h ⊢
  cases h1 : (line)[1]? with
  | none => simp [h1] at h
  | some raw =>
    simp only [h1, Option.some_bind] at h ⊢
    cases h2 : A.parseFloat (normalizeWeight raw) with
    | none => simp [h2] at h
    | some w => simp

theorem processLines_ok {F : Type} (A : Float64Ops F) (rows : List (List String)) :
    ∀ (t t' : PanelistMap F), processLines A t rows = .ok t' →
      (∀ line ∈ rows, (parsedWeight A line).isSome = true) ∧
      t' = rows.foldl (mergeRow A) t := by
  induction rows with
  | nil =>
    intro t t' h
    simp only [processLines] at h
    injection h with h
    simp [h]
  | cons line rest ih =>
    intro t t' h
    simp only [processLines] at h
    cases h1 : processLine A t line with
    | error e => simp [h1] at h
    | ok t₁ =>
      simp only [h1] at h
      obtain ⟨hp, ht⟩ := processLine_ok A t t₁ line h1
      obtain ⟨hall, hfold⟩ := ih t₁ t' h
      refine ⟨?_, ?_⟩
      · intro l hl
        rcases List.mem_cons.mp hl with rfl | hl
        · exact hp
        · exact hall l hl
      · simp [List.foldl_cons, hfold, ht]

theorem processLines_of_parsed {F : Type} (A : Float64Ops F) (rows : List (List String)) :
    ∀ (t : PanelistMap F), (∀ line ∈ rows, (parsedWeight A line).isSome = true) →
      processLines A t rows = .ok (rows.foldl (mergeRow A) t) := by
  induction rows with
  | nil => intro t _; rfl
  | cons line rest ih =>
    intro t h
    simp only [processLines, processLine_of_parsed A t line (h line (List.mem_cons_self _ _)),
      List.foldl_cons]
    exact ih _ (fun l hl => h l (List.mem_cons_of_mem _ hl))

/-! ## Folding rows into the map -/

theorem rowsOf_cons (k : String) (line : List String) (rows : List (List String)) :
    rowsOf k (line :: rows) =
      if rowKey line = k then line :: rowsOf k rows else rowsOf k rows := by
  unfold rowsOf
  by_cases h : rowKey line = k <;> simp [List.filter_cons, h]

theorem rowsOf_append (k : String) (r₁ r₂ : List (List String)) :
    rowsOf k (r₁ ++ r₂) = rowsOf k r₁ ++ rowsOf k r₂ := by
  unfold rowsOf
  simp

theorem rowsOf_eq_nil (k : String) (rows : List (List String))
    (h : ∀ line ∈ rows, rowKey line ≠ k) : rowsOf k rows = [] := by
  unfold rowsOf
  simpa [List.filter_eq_nil_iff] using h

theorem mem_rowsOf (k : String) (rows : List (List String)) (line : List String) :
    line ∈ rowsOf k rows ↔ line ∈ rows ∧ rowKey line = k := by
  unfold rowsOf
  simp

theorem mapGet_mergeRow {F : Type} (A : Float64Ops F) (t : PanelistMap F)
    (line : List String) (k : String) :
    mapGet (mergeRow A t line) k =
      if rowKey line = k then
        ⟨(mapGet t k).weights ++ (parsedWeight A line).toList, rowFeatures line⟩
      else mapGet t k := by
  unfold mergeRow
  by_cases h : rowKey line = k
  · subst h
    simp [mapGet_mapSet_same]
  · simp [h, mapGet_mapSet_other _ _ _ _ h]

theorem mem_keys_foldl {F : Type} (A : Float64Ops F) (rows : List (List String)) :
    ∀ (t : PanelistMap F) (k : String),
      k ∈ (rows.foldl (mergeRow A) t).map Prod.fst ↔
        k ∈ t.map Prod.fst ∨ ∃ line ∈ rows, rowKey line = k := by
  induction rows with
  | nil => intro t k; simp
  | cons line rest ih =>
    intro t k
    rw [List.foldl_cons, ih]
    unfold mergeRow
    rw [mem_keys_mapSet]
    simp only [List.mem_cons, exists_eq_or_imp]
    constructor
    · rintro ((h | h) | h)
      · exact Or.inr (Or.inl h.symm)
      · exact Or.inl h
      · exact Or.inr (Or.inr h)
    · rintro (h | h | h)
      · exact Or.inl (Or.inr h)
      · exact Or.inl (Or.inl h.symm)
      · exact Or.inr h

theorem nodup_keys_foldl {F : Type} (A : Float64Ops F) (rows : List (List String)) :
    ∀ (t : PanelistMap F), (t.map Prod.fst).Nodup →
      ((rows.foldl (mergeRow A) t).map Prod.fst).Nodup := by
  induction rows with
  | nil => intro t h; simpa using h
  | cons line rest ih =>
    intro t h
    rw [List.foldl_cons]
    exact ih _ (nodup_keys_mapSet _ _ _ h)

theorem weights_foldl {F : Type} (A : Float64Ops F) (rows : List (List String)) :
    ∀ (t : PanelistMap F) (k : String),
      (mapGet (rows.foldl (mergeRow A) t) k).weights =
        (mapGet t k).weights ++ (rowsOf k rows).filterMap (parsedWeight A) := by
  induction rows with
  | nil => intro t k; simp [rowsOf]
  | cons line rest ih =>
    intro t k
    rw [List.foldl_cons, ih, mapGet_mergeRow, rowsOf_cons]
    by_cases h : rowKey line = k
    · simp only [h, if_true, List.append_assoc]
      cases hp : parsedWeight A line <;> simp [List.filterMap_cons, hp]
    · simp [h]

theorem features_foldl {F : Type} (A : Float64Ops F) (rows : List (List String)) :
    ∀ (t : PanelistMap F) (k : String),
      (mapGet (rows.foldl (mergeRow A) t) k).features =
        (((rowsOf k rows).getLast?).map rowFeatures).getD (mapGet t k).features := by
  induction rows with
  | nil => intro t k; simp [rowsOf]
  | cons line rest ih =>
    intro t k
    rw [List.foldl_cons, ih, mapGet_mergeRow, rowsOf_cons]
    by_cases h : rowKey line = k
    · simp only [h, if_true]
      cases hr : rowsOf k rest with
      | nil => simp
      | cons l ls =>
        have hx := List.getLast?_eq_getLast (l :: ls) (by simp)
        rw [List.getLast?_cons_cons, hx]
        simp
    · simp [h]

/-! ## The file loop -/

theorem processFile_hidden {F : Type} (A : Float64Ops F) (csv : CsvRead) (st : State F)
    (file : DirEntry) (h : notHidden file = false) : processFile A csv st file = .ok st := by
  unfold notHidden at h
  simp only [Bool.not_eq_false'] at h
  simp [processFile, h]

theorem processFile_ok {F : Type} (A : Float64Ops F) (csv : CsvRead) (st st' : State F)
    (file : DirEntry) (hv : notHidden file = true) (h : processFile A csv st file = .ok st') :
    ∃ header, headerOf csv file = some header ∧
      (openReader csv '\t' file).err = none ∧
      (∀ line ∈ dataRows csv file, (parsedWeight A line).isSome = true) ∧
      st'.days = st.days + 1 ∧
      st'.headerRow = (if st.headerRow.length = 0 then header else st.headerRow) ∧
      st'.panelists = (dataRows csv file).foldl (mergeRow A) st.panelists := by
  unfold notHidden at hv
  simp only [Bool.not_eq_true'] at hv
  unfold headerOf dataRows
  simp only [processFile, hv] at h
  cases hrec : (openReader csv '\t' file).records with
  | nil => simp [hrec] at h
  | cons header lines =>
    simp only [hrec] at h
    cases hl : processLines A st.panelists lines with
    | error e => simp [hl] at h
    | ok t =>
      simp only [hl] at h
      obtain ⟨hall, hfold⟩ := processLines_ok A lines _ _ hl
      cases herr : (openReader csv '\t' file).err with
      | some e => simp [herr] at h
      | none =>
        simp only [herr] at h
        injection h with h
        subst h
        exact ⟨header, by simp, rfl, by simpa using hall, rfl, rfl, by simpa using hfold⟩

theorem processFile_of_good {F : Type} (A : Float64Ops F) (csv : CsvRead) (st : State F)
    (file : DirEntry) (header : List String) (hv : notHidden file = true)
    (hh : headerOf csv file = some header)
    (he : (openReader csv '\t' file).err = none)
    (hp : ∀ line ∈ dataRows csv file, (parsedWeight A line).isSome = true) :
    processFile A csv st file =
      .ok ⟨st.days + 1, (if st.headerRow.length = 0 then header else st.headerRow),
        (dataRows csv file).foldl (mergeRow A) st.panelists⟩ := by
  unfold notHidden at hv
  simp only [Bool.not_eq_true'] at hv
  unfold headerOf at hh
  unfold dataRows at hp ⊢
  cases hrec : (openReader csv '\t' file).records with
  | nil => simp [hrec] at hh
  | cons h lines =>
    simp only [hrec, List.head?_cons, Option.some.injEq] at hh
    subst hh
    simp only [hrec, List.tail_cons] at hp ⊢
    simp [processFile, hv, hrec, processLines_of_parsed A lines st.panelists hp, he]

/-! ## Sorting by name -/

theorem lessChars_irrefl : ∀ (a : List Char), lessChars a a = false
  | [] => by simp [lessChars]
  | a :: as => by simp [lessChars, lessChars_irrefl as]

theorem lessChars_lt_of_lt_of_le : ∀ (a b c : List Char),
    lessChars a b = true → lessChars c b = false → lessChars a c = true
  | _, [], _, h, _ => by simp [lessChars] at h
  | [], _ :: _, [], _, h' => by simp [lessChars] at h'
  | [], _ :: _, _ :: _, _, _ => by simp [lessChars]
  | _ :: _, _ :: _, [], _, h' => by simp [lessChars] at h'
  | a :: as, b :: bs, c :: cs, h, h' => by
    have ih := lessChars_lt_of_lt_of_le as bs cs
    simp only [lessChars] at h h' ⊢
    by_cases h1 : a.toNat < b.toNat
    · by_cases h2 : c.toNat < b.toNat
      · simp [h2] at h'
      · have h3 : a.toNat < c.toNat := by omega
        simp [h3]
    · simp only [h1, if_false] at h
      by_cases h4 : b.toNat < a.toNat
      · simp [h4] at h
      · simp only [h4, if_false] at h
        by_cases h2 : c.toNat < b.toNat
        · simp [h2] at h'
        · simp only [h2, if_false] at h'
          by_cases h5 : b.toNat < c.toNat
          · have h3 : a.toNat < c.toNat := by omega
            simp [h3]
          · simp only [h5, if_false] at h'
            have h6 : ¬ a.toNat < c.toNat := by omega
            have h7 : ¬ c.toNat < a.toNat := by omega
            simp only [h6, h7, if_false]
            exact ih h h'

theorem lessChars_asymm : ∀ (a b : List Char),
    lessChars a b = true → lessChars b a = false
  | _, [], h => by simp [lessChars] at h
  | [], _ :: _, _ => by simp [lessChars]
  | a :: as, b :: bs, h => by
    have ih := lessChars_asymm as bs
    simp only [lessChars] at h ⊢
    by_cases h1 : a.toNat < b.toNat
    · have h2 : ¬ b.toNat < a.toNat := by omega
      simp [h1, h2]
    · simp only [h1, if_false] at h
      by_cases h4 : b.toNat < a.toNat
      · simp [h4] at h
      · simp only [h4, if_false] at h
        simp only [h1, h4, if_false]
        exact ih h

theorem less_asymm (a b : DirEntry) (h : less a b = true) : less b a = false :=
  lessChars_asymm _ _ h

theorem less_irrefl (a : DirEntry) : less a a = false := lessChars_irrefl _

theorem less_of_less_of_not_less (a b c : DirEntry) (h : less a b = true)
    (h' : less c b = false) : less a c = true :=
  lessChars_lt_of_lt_of_le _ _ _ h h'

theorem insertSorted_of_less (a b : DirEntry) (l : List DirEntry) (h : less a b = true) :
    insertSorted a (b :: l) = a :: b :: l := by
  simp [insertSorted, h]

theorem insertSorted_of_not_less (a b : DirEntry) (l : List DirEntry)
    (h : less a b = false) : insertSorted a (b :: l) = b :: insertSorted a l := by
  simp [insertSorted, h]

theorem mem_insertSorted (a x : DirEntry) (l : List DirEntry) :
    x ∈ insertSorted a l ↔ x = a ∨ x ∈ l := by
  induction l with
  | nil => simp [insertSorted]
  | cons b l ih =>
    cases h : less a b with
    | true => simp [insertSorted_of_less _ _ _ h]
    | false =>
      rw [insertSorted_of_not_less _ _ _ h]
      simp only [List.mem_cons, ih]
      tauto

theorem mem_sortFiles (x : DirEntry) (l : List DirEntry) : x ∈ sortFiles l ↔ x ∈ l := by
  induction l with
  | nil => simp [sortFiles]
  | cons a l ih => simp [sortFiles, mem_insertSorted, ih]

theorem length_insertSorted (a : DirEntry) (l : List DirEntry) :
    (insertSorted a l).length = l.length + 1 := by
  induction l with
  | nil => simp [insertSorted]
  | cons b l ih =>
    cases h : less a b with
    | true => simp [insertSorted_of_less _ _ _ h]
    | false => simp [insertSorted_of_not_less _ _ _ h, ih]

theorem pairwise_insertSorted (a : DirEntry) (l : List DirEntry)
    (hl : l.Pairwise (fun x y => less y x = false)) :
    (insertSorted a l).Pairwise (fun x y => less y x = false) := by
  induction l with
  | nil => simp [insertSorted]
  | cons b l ih =>
    rw [List.pairwise_cons] at hl
    cases h : less a b with
    | true =>
      rw [insertSorted_of_less _ _ _ h]
      refine List.pairwise_cons.mpr ⟨?_, List.pairwise_cons.mpr hl⟩
      intro c hc
      have hcb : less c b = false := by
        rcases List.mem_cons.mp hc with rfl | hc
        · exact less_irrefl _
        · exact hl.1 c hc
      exact less_asymm _ _ (less_of_less_of_not_less a b c h hcb)
    | false =>
      rw [insertSorted_of_not_less _ _ _ h]
      refine List.pairwise_cons.mpr ⟨?_, ih hl.2⟩
      intro c hc
      rcases (mem_insertSorted a c l).mp hc with rfl | hc
      · exact h
      · exact hl.1 c hc

theorem pairwise_sortFiles (l : List DirEntry) :
    (sortFiles l).Pairwise (fun x y => less y x = false) := by
  induction l with
  | nil => simp [sortFiles]
  | cons a l ih => exact pairwise_insertSorted a _ ih

theorem filter_insertSorted (p : DirEntry → Bool) (a : DirEntry) (l : List DirEntry)
    (hl : l.Pairwise (fun x y => less y x = false)) :
    (insertSorted a l).filter p =
      if p a = true then insertSorted a (l.filter p) else l.filter p := by
  induction l with
  | nil => cases hp : p a <;> simp [insertSorted, hp]
  | cons b l ih =>
    rw [List.pairwise_cons] at hl
    have ih := ih hl.2
    cases h : less a b with
    | true =>
      rw [insertSorted_of_less _ _ _ h]
      cases hp : p a with
      | false => simp [hp]
      | true =>
        cases hb : p b with
        | true => simp [hp, hb, insertSorted_of_less _ _ _ h]
        | false =>
          simp only [hp, hb, if_true, List.filter_cons_of_pos, Bool.false_eq_true,
            not_false_eq_true, List.filter_cons_of_neg]
          cases hf : l.filter p with
          | nil => simp [insertSorted]
          | cons c cs =>
            have hc : c ∈ l := (List.mem_filter.mp (hf ▸ List.mem_cons_self c cs)).1
            have hac : less a c = true := less_of_less_of_not_less a b c h (hl.1 c hc)
            rw [insertSorted_of_less _ _ _ hac]
    | false =>
      rw [insertSorted_of_not_less _ _ _ h]
      cases hp : p a with
      | false =>
        simp only [hp, Bool.false_eq_true, if_false] at ih ⊢
        cases hb : p b <;> simp [hb, ih]
      | true =>
        simp only [hp, if_true] at ih ⊢
        cases hb : p b with
        | true => simp [hb, ih, insertSorted_of_not_less _ _ _ h]
        | false => simp [hb, ih]

theorem filter_sortFiles (p : DirEntry → Bool) (l : List DirEntry) :
    (sortFiles l).filter p = sortFiles (l.filter p) := by
  induction l with
  | nil => simp [sortFiles]
  | cons a l ih =>
    simp only [sortFiles, filter_insertSorted p a _ (pairwise_sortFiles l), ih]
    cases hp : p a with
    | true => simp [sortFiles, List.filter_cons_of_pos, hp]
    | false => simp [hp]

theorem length_sortFiles (l : List DirEntry) : (sortFiles l).length = l.length := by
  induction l with
  | nil => simp [sortFiles]
  | cons a l ih => simp [sortFiles, length_insertSorted, ih]

theorem mem_processed (listing : List DirEntry) (f : DirEntry) :
    f ∈ processed listing ↔ f ∈ listing ∧ notHidden f = true := by
  unfold processed
  simp [mem_sortFiles]

theorem pairwise_processed (listing : List DirEntry) :
    (processed listing).Pairwise (fun x y => less y x = false) :=
  (pairwise_sortFiles listing).filter _

theorem processed_filter (listing : List DirEntry) :
    processed (listing.filter notHidden) = processed listing := by
  unfold processed
  rw [filter_sortFiles, filter_sortFiles, List.filter_filter]
  simp

/-! ## The whole file loop -/

theorem processFiles_filter {F : Type} (A : Float64Ops F) (csv : CsvRead)
    (files : List DirEntry) :
    ∀ (st : State F),
      processFiles A csv st files = processFiles A csv st (files.filter notHidden) := by
  induction files with
  | nil => intro st; rfl
  | cons f rest ih =>
    intro st
    cases hv : notHidden f with
    | false =>
      simp only [processFiles, processFile_hidden A csv st f hv, hv, Bool.false_eq_true,
        not_false_eq_true, List.filter_cons_of_neg]
      exact ih st
    | true =>
      simp only [processFiles, List.filter_cons_of_pos, hv]
      cases processFile A csv st f with
      | error e => rfl
      | ok st₁ => exact ih st₁

theorem processFiles_ok {F : Type} (A : Float64Ops F) (csv : CsvRead)
    (files : List DirEntry) :
    ∀ (st st' : State F), (∀ f ∈ files, notHidden f = true) →
      processFiles A csv st files = .ok st' →
      (∀ f ∈ files, (headerOf csv f).isSome = true ∧
        (openReader csv '\t' f).err = none ∧
        ∀ line ∈ dataRows csv f, (parsedWeight A line).isSome = true) ∧
      st'.days = st.days + files.length ∧
      st'.panelists = (files.flatMap (dataRows csv)).foldl (mergeRow A) st.panelists ∧
      (st.headerRow ≠ [] → st'.headerRow = st.headerRow) := by
  induction files with
  | nil =>
    intro st st' _ h
    simp only [processFiles] at h
    injection h with h
    subst h
    simp
  | cons f rest ih =>
    intro st st' hv h
    simp only [processFiles] at h
    cases h1 : processFile A csv st f with
    | error e => simp [h1] at h
    | ok st₁ =>
      simp only [h1] at h
      obtain ⟨header, hh, he, hp, hd, hhr, hpan⟩ :=
        processFile_ok A csv st st₁ f (hv f (List.mem_cons_self _ _)) h1
      obtain ⟨hgood, hdays, hpan', hhdr⟩ :=
        ih st₁ st' (fun g hg => hv g (List.mem_cons_of_mem _ hg)) h
      refine ⟨?_, ?_, ?_, ?_⟩
      · intro g hg
        rcases List.mem_cons.mp hg with rfl | hg
        · exact ⟨by simp [hh], he, hp⟩
        · exact hgood g hg
      · rw [hdays, hd, List.length_cons]; omega
      · rw [hpan', hpan, List.flatMap_cons, List.foldl_append]
      · intro hne
        have h0 : ¬ st.headerRow.length = 0 := by
          simpa [List.length_eq_zero] using hne
        have h1 : st₁.headerRow = st.headerRow := by simp [hhr, h0]
        rw [hhdr (h1 ▸ hne), h1]

theorem processFiles_of_good {F : Type} (A : Float64Ops F) (csv : CsvRead)
    (files : List DirEntry) :
    ∀ (st : State F),
      (∀ f ∈ files, notHidden f = true → (headerOf csv f).isSome = true ∧
        (openReader csv '\t' f).err = none ∧
        ∀ line ∈ dataRows csv f, (parsedWeight A line).isSome = true) →
      ∃ st', processFiles A csv st files = .ok st' := by
  induction files with
  | nil => intro st _; exact ⟨st, rfl⟩
  | cons f rest ih =>
    intro st hgood
    have hrest := fun g hg => hgood g (List.mem_cons_of_mem _ hg)
    cases hv : notHidden f with
    | false =>
      simp only [processFiles, processFile_hidden A csv st f hv]
      exact ih st hrest
    | true =>
      obtain ⟨hh, he, hp⟩ := hgood f (List.mem_cons_self _ _) hv
      obtain ⟨header, hh⟩ := Option.isSome_iff_exists.mp hh
      simp only [processFiles, processFile_of_good A csv st f header hv hh he hp]
      exact ih _ hrest

theorem mergeAll_eq {F : Type} (A : Float64Ops F) (csv : CsvRead) (listing : List DirEntry) :
    mergeAll A csv listing = processFiles A csv (initState F) (processed listing) := by
  unfold mergeAll processed
  exact processFiles_filter A csv _ _

theorem mergeAll_ok {F : Type} (A : Float64Ops F) (csv : CsvRead) (listing : List DirEntry)
    (st : State F) (h : mergeAll A csv listing = .ok st) :
    (∀ f ∈ processed listing, (headerOf csv f).isSome = true ∧
      (openReader csv '\t' f).err = none ∧
      ∀ line ∈ dataRows csv f, (parsedWeight A line).isSome = true) ∧
    st.days = (processed listing).length ∧
    st.panelists = (observedRows csv listing).foldl (mergeRow A) [] := by
  rw [mergeAll_eq] at h
  have hv : ∀ f ∈ processed listing, notHidden f = true :=
    fun f hf => ((mem_processed listing f).mp hf).2
  obtain ⟨hgood, hdays, hpan, _⟩ := processFiles_ok A csv _ _ _ hv h
  refine ⟨hgood, ?_, ?_⟩
  · simpa [initState] using hdays
  · simpa [initState, observedRows] using hpan

theorem mergeAll_header {F : Type} (A : Float64Ops F) (csv : CsvRead)
    (listing : List DirEntry) (st : State F) (first : DirEntry) (rest : List DirEntry)
    (header : List String) (h : mergeAll A csv listing = .ok st)
    (hfirst : processed listing = first :: rest)
    (hh : headerOf csv first = some header) (hne : header ≠ []) :
    st.headerRow = header := by
  rw [mergeAll_eq, hfirst] at h
  have hv : ∀ f ∈ first :: rest, notHidden f = true := by
    intro f hf
    exact ((mem_processed listing f).mp (hfirst ▸ hf)).2
  simp only [processFiles] at h
  cases h1 : processFile A csv (initState F) first with
  | error e => simp [h1] at h
  | ok st₁ =>
    simp only [h1] at h
    obtain ⟨header', hh', _, _, _, hhr, _⟩ :=
      processFile_ok A csv _ st₁ first (hv first (List.mem_cons_self _ _)) h1
    have hheq : header' = header := by
      rw [hh] at hh'
      exact (Option.some.inj hh').symm
    subst hheq
    have h1 : st₁.headerRow = header' := by simpa [initState] using hhr
    obtain ⟨_, _, _, hkeep⟩ :=
      processFiles_ok A csv rest st₁ st (fun g hg => hv g (List.mem_cons_of_mem _ hg)) h
    rw [hkeep (h1 ▸ hne), h1]

theorem main_ok {F : Type} (A : Float64Ops F) (csv : CsvRead) (flags : Flags)
    (listing : List DirEntry) (out : Output) (h : main A csv flags listing = .ok out) :
    ∃ st, mergeAll A csv listing = .ok st ∧ out = writeOutput A flags st := by
  unfold main at h
  cases hm : mergeAll A csv listing with
  | error e => simp [hm] at h
  | ok st =>
    simp only [hm] at h
    injection h with h
    exact ⟨st, rfl, h.symm⟩

theorem nodup_keys_of_mergeAll {F : Type} (A : Float64Ops F) (csv : CsvRead)
    (listing : List DirEntry) (st : State F) (h : mergeAll A csv listing = .ok st) :
    (st.panelists.map Prod.fst).Nodup := by
  rw [(mergeAll_ok A csv listing st h).2.2]
  exact nodup_keys_foldl A _ [] (by simp)

theorem mem_keys_of_mergeAll {F : Type} (A : Float64Ops F) (csv : CsvRead)
    (listing : List DirEntry) (st : State F) (h : mergeAll A csv listing = .ok st)
    (k : String) :
    k ∈ st.panelists.map Prod.fst ↔ ∃ line ∈ observedRows csv listing, rowKey line = k := by
  rw [(mergeAll_ok A csv listing st h).2.2, mem_keys_foldl]
  simp

/-- The output row of a key is determined by the map entry of that key. -/
theorem row_of_key {F : Type} (A : Float64Ops F) (flags : Flags) (st : State F)
    (hnd : (st.panelists.map Prod.fst).Nodup) (k : String)
    (hk : k ∈ st.panelists.map Prod.fst) :
    writeRow A (k, mapGet st.panelists k) ∈ (writeOutput A flags st).rows ∧
    ∀ r ∈ (writeOutput A flags st).rows, r.key = k →
      r = writeRow A (k, mapGet st.panelists k) := by
  constructor
  · exact List.mem_map.mpr ⟨_, mem_of_mem_keys _ _ hk, rfl⟩
  · intro r hr hkey
    obtain ⟨⟨k', m⟩, hmem, rfl⟩ := List.mem_map.mp hr
    have : k' = k := hkey
    subst this
    rw [mapGet_of_mem _ _ _ hnd hmem]

/-! ## Counting rows and files -/

theorem length_filterMap_of_isSome {α β : Type} (f : α → Option β) (l : List α)
    (h : ∀ a ∈ l, (f a).isSome = true) : (l.filterMap f).length = l.length := by
  induction l with
  | nil => rfl
  | cons a l ih =>
    obtain ⟨b, hb⟩ := Option.isSome_iff_exists.mp (h a (List.mem_cons_self _ _))
    simp [List.filterMap_cons, hb, ih (fun x hx => h x (List.mem_cons_of_mem _ hx))]

theorem length_rowsOf_flatMap (csv : CsvRead) (k : String) (files : List DirEntry)
    (h : ∀ f ∈ files, (rowsOf k (dataRows csv f)).length ≤ 1) :
    (rowsOf k (files.flatMap (dataRows csv))).length =
      (files.filter (fun f => !(rowsOf k (dataRows csv f)).isEmpty)).length := by
  induction files with
  | nil => simp [rowsOf]
  | cons f rest ih =>
    have ih := ih (fun g hg => h g (List.mem_cons_of_mem _ hg))
    have hf := h f (List.mem_cons_self _ _)
    rw [List.flatMap_cons, rowsOf_append, List.length_append, ih]
    cases hr : rowsOf k (dataRows csv f) with
    | nil => simp [hr]
    | cons l ls =>
      rw [hr] at hf
      have : ls = [] := by
        cases ls with
        | nil => rfl
        | cons x xs => simp at hf
      subst this
      simp [hr, List.filter_cons_of_pos]
      omega

theorem length_rowsOf_le (csv : CsvRead) (k : String) (files : List DirEntry)
    (h : ∀ f ∈ files, (rowsOf k (dataRows csv f)).length ≤ 1) :
    (rowsOf k (files.flatMap (dataRows csv))).length ≤ files.length := by
  rw [length_rowsOf_flatMap csv k files h]
  exact List.length_filter_le _ _

theorem mem_observedRows (csv : CsvRead) (listing : List DirEntry) (line : List String) :
    line ∈ observedRows csv listing ↔
      ∃ f ∈ listing, notHidden f = true ∧ line ∈ dataRows csv f := by
  unfold observedRows
  simp only [List.mem_flatMap, mem_processed]
  constructor
  · rintro ⟨f, ⟨hf, hv⟩, hl⟩
    exact ⟨f, hf, hv, hl⟩
  · rintro ⟨f, hf, hv, hl⟩
    exact ⟨f, ⟨hf, hv⟩, hl⟩

theorem weights_of_mergeAll {F : Type} (A : Float64Ops F) (csv : CsvRead)
    (listing : List DirEntry) (st : State F) (h : mergeAll A csv listing = .ok st)
    (k : String) :
    (mapGet st.panelists k).weights = keyWeights A csv listing k ∧
    (keyWeights A csv listing k).length = (rowsOf k (observedRows csv listing)).length := by
  obtain ⟨hgood, _, hpan⟩ := mergeAll_ok A csv listing st h
  constructor
  · rw [hpan, weights_foldl]
    simp [mapGet, keyWeights]
  · unfold keyWeights
    apply length_filterMap_of_isSome
    intro line hl
    obtain ⟨hmem, _⟩ := (mem_rowsOf _ _ _).mp hl
    unfold observedRows at hmem
    obtain ⟨f, hf, hlf⟩ := List.mem_flatMap.mp hmem
    exact (hgood f hf).2.2 line hlf

/-! ## The claims -/

/-- C1: in a successful run, a panelist key that appears in `n ≥ 1` of the
processed files, on one data row in each, gets an output row (and only one)
whose weight field is `strconv.FormatFloat(x, 'f', 5, 64)` of
`x = (0 + w1 + ... + wn) / float64(n)`, where `w1..wn` are the parsed weights
of the key in processing order and `n` is the number of files in which the key
appeared, whatever the total number of processed files. -/
theorem C1_mean_weight {F : Type} (A : Float64Ops F) (csv : CsvRead) (flags : Flags)
    (listing : List DirEntry) (out : Output) (k : String) (n : Nat)
    (hrun : main A csv flags listing = .ok out)
    (honce : ∀ f ∈ processed listing, (rowsOf k (dataRows csv f)).length ≤ 1)
    (hn : 1 ≤ n)
    (hfiles : (filesWith csv listing k).length = n) :
    (keyWeights A csv listing k).length = n ∧
    ∃ r ∈ out.rows, r.key = k ∧
      r.weight = A.formatFloat
        (A.div ((keyWeights A csv listing k).foldl A.add A.zero) (A.ofInt n)) 5 ∧
      ∀ r' ∈ out.rows, r'.key = k → r' = r := by
  obtain ⟨st, hm, rfl⟩ := main_ok A csv flags listing out hrun
  obtain ⟨hw, hlen⟩ := weights_of_mergeAll A csv listing st hm k
  have hcount : (rowsOf k (observedRows csv listing)).length = n := by
    unfold observedRows
    rw [length_rowsOf_flatMap csv k _ honce]
    exact hfiles
  have hk : k ∈ st.panelists.map Prod.fst := by
    rw [mem_keys_of_mergeAll A csv listing st hm]
    cases hr : rowsOf k (observedRows csv listing) with
    | nil => rw [hr] at hcount; simp at hcount; omega
    | cons l ls =>
      have hl : l ∈ rowsOf k (observedRows csv listing) := hr ▸ List.mem_cons_self l ls
      obtain ⟨h1, h2⟩ := (mem_rowsOf _ _ _).mp hl
      exact ⟨l, h1, h2⟩
  obtain ⟨hrow, huniq⟩ := row_of_key A flags st (nodup_keys_of_mergeAll A csv listing st hm) k hk
  refine ⟨hlen.trans hcount, _, hrow, rfl, ?_, huniq⟩
  simp only [writeRow, average, hw, hlen.trans hcount]

/-- Witness for C1 on the two-day scenario: `A` appears in both files (weights
1.0 and 3.0, mean 2.00000) and `B` in one of the two (weight 2.0, mean 2.00000,
not 1.00000). -/
theorem C1_mean_weight_witness :
    main exactOps plainCsv defaultFlags scenario = .ok scenarioOutput ∧
    ((keyWeights exactOps plainCsv scenario "B").length = 1 ∧
      ∃ r ∈ scenarioOutput.rows, r.key = "B" ∧
        r.weight = exactOps.formatFloat
          (exactOps.div ((keyWeights exactOps plainCsv scenario "B").foldl
            exactOps.add exactOps.zero) (exactOps.ofInt 1)) 5 ∧
        ∀ r' ∈ scenarioOutput.rows, r'.key = "B" → r' = r) :=
  ⟨by decide,
   C1_mean_weight exactOps plainCsv defaultFlags scenario scenarioOutput "B" 1
     (by decide) (by decide) (by decide) (by decide)⟩

/-- C10 as stated fails: on `dupListing` one file is processed, it carries the
key `A` on two rows, and after the merge the weights sequence of `A` has
length 2, more than the number of distinct files containing `A` (one) and more
than the number of files processed (one). -/
theorem C10_counterexample :
    mergeAll exactOps plainCsv dupListing = .ok dupState ∧
    "A" ∈ dupState.panelists.map Prod.fst ∧
    (mapGet dupState.panelists "A").weights.length = 2 ∧
    (filesWith plainCsv dupListing "A").length = 1 ∧
    (processed dupListing).length = 1 ∧
    dupState.days = 1 := by
  decide

/-- C10 (amended): after all files are merged, the length of the weights
sequence of every key in the table equals the number of data rows carrying
that key in the processed files, which is at least 1; when no processed file
carries the key on more than one row, it equals the number of processed files
in which the key appears and is at most the number of files processed (the
final value of `days`). -/
theorem C10_weights_length {F : Type} (A : Float64Ops F) (csv : CsvRead)
    (listing : List DirEntry) (st : State F) (k : String)
    (hrun : mergeAll A csv listing = .ok st)
    (hk : k ∈ st.panelists.map Prod.fst) :
    (mapGet st.panelists k).weights.length = (rowsOf k (observedRows csv listing)).length ∧
    1 ≤ (mapGet st.panelists k).weights.length ∧
    st.days = (processed listing).length ∧
    ((∀ f ∈ processed listing, (rowsOf k (dataRows csv f)).length ≤ 1) →
      (mapGet st.panelists k).weights.length = (filesWith csv listing k).length ∧
      (mapGet st.panelists k).weights.length ≤ st.days) := by
  obtain ⟨hw, hlen⟩ := weights_of_mergeAll A csv listing st hrun k
  obtain ⟨_, hdays, _⟩ := mergeAll_ok A csv listing st hrun
  have hlen' : (mapGet st.panelists k).weights.length =
      (rowsOf k (observedRows csv listing)).length := by rw [hw, hlen]
  refine ⟨hlen', ?_, hdays, ?_⟩
  · obtain ⟨line, hl, hkey⟩ := (mem_keys_of_mergeAll A csv listing st hrun k).mp hk
    have : line ∈ rowsOf k (observedRows csv listing) := (mem_rowsOf _ _ _).mpr ⟨hl, hkey⟩
    rw [hlen']
    exact List.length_pos_of_mem this
  · intro honce
    constructor
    · rw [hlen']
      exact length_rowsOf_flatMap csv k _ honce
    · rw [hlen', hdays]
      exact length_rowsOf_le csv k _ honce

/-- Witness for the amended C10 on the two-day scenario and the key `A`. -/
theorem C10_weights_length_witness :
    mergeAll exactOps plainCsv scenario = .ok scenarioState ∧
    ((mapGet scenarioState.panelists "A").weights.length =
        (rowsOf "A" (observedRows plainCsv scenario)).length ∧
      1 ≤ (mapGet scenarioState.panelists "A").weights.length ∧
      scenarioState.days = (processed scenario).length ∧
      ((∀ f ∈ processed scenario, (rowsOf "A" (dataRows plainCsv f)).length ≤ 1) →
        (mapGet scenarioState.panelists "A").weights.length =
          (filesWith plainCsv scenario "A").length ∧
        (mapGet scenarioState.panelists "A").weights.length ≤ scenarioState.days)) :=
  ⟨by decide,
   C10_weights_length exactOps plainCsv scenario scenarioState "A" (by decide) (by decide)⟩

/-- C3: in a successful run the keys of the output rows are pairwise distinct,
and a key has an output row exactly when it is column 0 of some data row of
some file of the listing that is not skipped. -/
theorem C3_one_row_per_key {F : Type} (A : Float64Ops F) (csv : CsvRead) (flags : Flags)
    (listing : List DirEntry) (out : Output)
    (hrun : main A csv flags listing = .ok out) :
    out.keys.Nodup ∧
    ∀ k, k ∈ out.keys ↔
      ∃ f ∈ listing, notHidden f = true ∧ ∃ line ∈ dataRows csv f, rowKey line = k := by
  obtain ⟨st, hm, rfl⟩ := main_ok A csv flags listing out hrun
  have hkeys : (writeOutput A flags st).keys = st.panelists.map Prod.fst := by
    simp [Output.keys, writeOutput, writeRow, Function.comp_def]
  rw [hkeys]
  refine ⟨nodup_keys_of_mergeAll A csv listing st hm, fun k => ?_⟩
  rw [mem_keys_of_mergeAll A csv listing st hm]
  constructor
  · rintro ⟨line, hl, hkey⟩
    obtain ⟨f, hf, hv, hlf⟩ := (mem_observedRows csv listing line).mp hl
    exact ⟨f, hf, hv, line, hlf, hkey⟩
  · rintro ⟨f, hf, hv, line, hlf, hkey⟩
    exact ⟨line, (mem_observedRows csv listing line).mpr ⟨f, hf, hv, hlf⟩, hkey⟩

/-- Witness for C3 on the two-day scenario: the output keys are `A` and `B`. -/
theorem C3_one_row_per_key_witness :
    scenarioOutput.keys = ["A", "B"] ∧
    (scenarioOutput.keys.Nodup ∧
      ∀ k, k ∈ scenarioOutput.keys ↔
        ∃ f ∈ scenario, notHidden f = true ∧
          ∃ line ∈ dataRows plainCsv f, rowKey line = k) :=
  ⟨by decide,
   C3_one_row_per_key exactOps plainCsv defaultFlags scenario scenarioOutput (by decide)⟩

/-- C2: in a successful run, let `f` be the last processed file (processing
order is ascending file-name order) with a data row carrying the key `k`, and
`line` the last such row of `f`. Then the output has a row for `k` (and only
one), and its feature payload is columns 2..N of `line` joined by tabs. -/
theorem C2_last_features {F : Type} (A : Float64Ops F) (csv : CsvRead) (flags : Flags)
    (listing : List DirEntry) (out : Output) (k : String)
    (pre post : List DirEntry) (f : DirEntry)
    (before after : List (List String)) (line : List String)
    (hrun : main A csv flags listing = .ok out)
    (hsplit : processed listing = pre ++ f :: post)
    (hrows : dataRows csv f = before ++ line :: after)
    (hkey : rowKey line = k)
    (hafter : ∀ l ∈ after, rowKey l ≠ k)
    (hpost : ∀ g ∈ post, ∀ l ∈ dataRows csv g, rowKey l ≠ k) :
    (∀ g ∈ pre, less f g = false) ∧ (∀ g ∈ post, less g f = false) ∧
    ∃ r ∈ out.rows, r.key = k ∧
      r.features = String.intercalate "\t" (line.drop 2) ∧
      ∀ r' ∈ out.rows, r'.key = k → r' = r := by
  obtain ⟨st, hm, rfl⟩ := main_ok A csv flags listing out hrun
  obtain ⟨_, _, hpan⟩ := mergeAll_ok A csv listing st hm
  have hobs : observedRows csv listing =
      (pre.flatMap (dataRows csv) ++ before) ++ line ::
        (after ++ post.flatMap (dataRows csv)) := by
    unfold observedRows
    rw [hsplit, List.flatMap_append, List.flatMap_cons, hrows]
    simp
  have htail : rowsOf k (after ++ post.flatMap (dataRows csv)) = [] := by
    apply rowsOf_eq_nil
    intro l hl
    rcases List.mem_append.mp hl with hl | hl
    · exact hafter l hl
    · obtain ⟨g, hg, hlg⟩ := List.mem_flatMap.mp hl
      exact hpost g hg l hlg
  have hlast : (rowsOf k (observedRows csv listing)).getLast? = some line := by
    rw [hobs, rowsOf_append, rowsOf_cons, htail]
    simp [hkey]
  have hk : k ∈ st.panelists.map Prod.fst := by
    rw [mem_keys_of_mergeAll A csv listing st hm]
    exact ⟨line, by rw [hobs]; simp, hkey⟩
  obtain ⟨hrow, huniq⟩ :=
    row_of_key A flags st (nodup_keys_of_mergeAll A csv listing st hm) k hk
  have hsorted := pairwise_processed listing
  rw [hsplit, List.pairwise_append] at hsorted
  refine ⟨?_, ?_, _, hrow, rfl, ?_, huniq⟩
  · intro g hg
    exact hsorted.2.2 g hg f (List.mem_cons_self _ _)
  · intro g hg
    exact (List.pairwise_cons.mp hsorted.2.1).1 g hg
  · show (mapGet st.panelists k).features = _
    rw [hpan, features_foldl, hlast]
    simp [rowFeatures, mapGet]

/-- Witness for C2 on the two-day scenario: the features of `A` come from
`day2.tsv` (`z`), not from `day1.tsv` (`x`). -/
theorem C2_last_features_witness :
    main exactOps plainCsv defaultFlags scenario = .ok scenarioOutput ∧
    ((∀ g ∈ [day1], less day2 g = false) ∧ (∀ g ∈ ([] : List DirEntry), less g day2 = false) ∧
      ∃ r ∈ scenarioOutput.rows, r.key = "A" ∧
        r.features = String.intercalate "\t" (["A", "3,0", "z"].drop 2) ∧
        ∀ r' ∈ scenarioOutput.rows, r'.key = "A" → r' = r) :=
  ⟨by decide,
   C2_last_features exactOps plainCsv defaultFlags scenario scenarioOutput "A"
     [day1] [] day2 [] [] ["A", "3,0", "z"]
     (by decide) (by decide) (by decide) (by decide) (by decide) (by decide)⟩

theorem main_error_of_unparsed {F : Type} (A : Float64Ops F) (csv : CsvRead) (flags : Flags)
    (listing : List DirEntry) (f : DirEntry) (line : List String)
    (hf : f ∈ listing) (hv : notHidden f = true) (hline : line ∈ dataRows csv f)
    (hbad : (parsedWeight A line).isSome = false) :
    ∃ e, main A csv flags listing = .error e := by
  cases hm : main A csv flags listing with
  | error e => exact ⟨e, rfl⟩
  | ok out =>
    obtain ⟨st, hst, _⟩ := main_ok A csv flags listing out hm
    obtain ⟨hgood, _, _⟩ := mergeAll_ok A csv listing st hst
    have := (hgood f ((mem_processed listing f).mpr ⟨hf, hv⟩)).2.2 line hline
    rw [hbad] at this
    exact absurd this (by simp)

theorem processLine_cons_cons {F : Type} (A : Float64Ops F) (t : PanelistMap F)
    (key raw : String) (feats : List String) :
    processLine A t (key :: raw :: feats) =
      match A.parseFloat (normalizeWeight raw) with
      | none => .error (.parseFloat (normalizeWeight raw))
      | some w =>
        .ok (mapSet t key ⟨(mapGet t key).weights ++ [w],
          String.intercalate "\t" feats⟩) := by
  rw [processLine_eq]
  simp only [List.getElem?_cons_succ, List.getElem?_cons_zero, rowKey, List.headD_cons,
    rowFeatures, List.drop_succ_cons, List.drop_zero]

/-- What the row loop does with a record, by its number of columns: with
fewer than 2 the access `line[1]` panics (no error is raised by the program
itself), the row is not merged and the run aborts without output; with at
least 2, column 0 is the key, column 1 the raw weight and columns 2..N
(possibly none) the feature fields. -/
theorem processLine_columns {F : Type} (A : Float64Ops F) (t : PanelistMap F)
    (line : List String) :
    (line.length < 2 →
      processLine A t line = .error (.indexOutOfRange 1 line.length) ∧
      (∀ rest, processLines A t (line :: rest) = .error (.indexOutOfRange 1 line.length)) ∧
      ∀ (csv : CsvRead) (flags : Flags) (listing : List DirEntry) (f : DirEntry),
        f ∈ listing → notHidden f = true → line ∈ dataRows csv f →
        ∃ e, main A csv flags listing = .error e) ∧
    (∀ key raw feats, line = key :: raw :: feats →
      processLine A t line =
        match A.parseFloat (normalizeWeight raw) with
        | none => .error (.parseFloat (normalizeWeight raw))
        | some w =>
          .ok (mapSet t key ⟨(mapGet t key).weights ++ [w],
            String.intercalate "\t" feats⟩)) := by
  constructor
  · intro hlen
    have h1 : (line)[1]? = none := by
      rw [List.getElem?_eq_none_iff]
      omega
    have hp : processLine A t line = .error (.indexOutOfRange 1 line.length) := by
      rw [processLine_eq, h1]
    refine ⟨hp, ?_, ?_⟩
    · intro rest
      simp [processLines, hp]
    · intro csv flags listing f hf hv hline
      exact main_error_of_unparsed A csv flags listing f line hf hv hline
        (by simp [parsedWeight, h1])
  · rintro key raw feats rfl
    exact processLine_cons_cons A t key raw feats

/-- C5, evaluated at a data row with the single column `A`: the row does not
end in an error the program reports through `log.Fatal`; the access `line[1]`
raises the run-time panic `index out of range [1] with length 1`, and a run
over a file with that row aborts with this panic. A row with at least two
columns is decoded as the claim says. -/
theorem C5_short_row_panics :
    processLine exactOps [] ["A"] = .error (.indexOutOfRange 1 1) ∧
    (¬ ∃ e, processLine exactOps [] ["A"] = .error e ∧ e.isLogFatal = true) ∧
    main exactOps plainCsv defaultFlags shortRowListing = .error (.indexOutOfRange 1 1) ∧
    processLine exactOps [] ["A", "1,5", "x", "y"] = .ok [("A", ⟨[⟨15, 10⟩], "x\ty"⟩)] := by
  have h : processLine exactOps [] ["A"] = .error (.indexOutOfRange 1 1) := by decide
  refine ⟨h, ?_, by decide, by decide⟩
  rintro ⟨e, he, hfatal⟩
  rw [h] at he
  injection he with he
  subst he
  simp [Abort.isLogFatal] at hfatal

/-- C6: if some data row of some file that is not skipped has a column 1 whose
normalised form `strconv.ParseFloat` rejects, the row itself ends in the parse
error, and the run ends in an abort and yields no output whatever the other
rows and files are. -/
theorem C6_parse_failure_aborts {F : Type} (A : Float64Ops F) (csv : CsvRead)
    (flags : Flags) (listing : List DirEntry) (f : DirEntry) (line : List String)
    (raw : String)
    (hf : f ∈ listing) (hv : notHidden f = true) (hline : line ∈ dataRows csv f)
    (hraw : (line)[1]? = some raw) (hbad : A.parseFloat (normalizeWeight raw) = none) :
    (∃ e, main A csv flags listing = .error e) ∧
    (∀ out, main A csv flags listing ≠ .ok out) ∧
    (∀ t, processLine A t line = .error (.parseFloat (normalizeWeight raw))) := by
  have habort := main_error_of_unparsed A csv flags listing f line hf hv hline
    (by simp [parsedWeight, hraw, hbad])
  refine ⟨habort, ?_, ?_⟩
  · intro out hout
    obtain ⟨e, he⟩ := habort
    rw [he] at hout
    cases hout
  · intro t
    rw [processLine_eq, hraw]
    simp only [hbad]

/-- Witness for C6: the weight `n/a` on the last row of the second file aborts
the run although the first file and the first row of the second are valid. -/
theorem C6_parse_failure_aborts_witness :
    main exactOps plainCsv defaultFlags badWeightListing = .error (.parseFloat "n/a") ∧
    ((∃ e, main exactOps plainCsv defaultFlags badWeightListing = .error e) ∧
      (∀ out, main exactOps plainCsv defaultFlags badWeightListing ≠ .ok out) ∧
      (∀ t, processLine exactOps t ["B", "n/a", "y"] =
        .error (.parseFloat (normalizeWeight "n/a")))) :=
  ⟨by decide,
   C6_parse_failure_aborts exactOps plainCsv defaultFlags badWeightListing
     ⟨"day2.tsv", some "id\twgt\tfeat\nA\t3,0\tz\nB\tn/a\ty\n"⟩ ["B", "n/a", "y"] "n/a"
     (by decide) (by decide) (by decide) (by decide) (by decide)⟩

theorem replaceFirst_of_not_mem (old new : Char) (cs : List Char) (h : old ∉ cs) :
    replaceFirst old new cs = cs := by
  induction cs with
  | nil => rfl
  | cons c cs ih =>
    have hc : c ≠ old := fun hc => h (hc ▸ List.mem_cons_self _ _)
    have hcs : old ∉ cs := fun hm => h (List.mem_cons_of_mem _ hm)
    simp [replaceFirst, hc, ih hcs]

theorem replaceFirst_append (old new : Char) (pre post : List Char) (h : old ∉ pre) :
    replaceFirst old new (pre ++ old :: post) = pre ++ new :: post := by
  induction pre with
  | nil => simp [replaceFirst]
  | cons c cs ih =>
    have hc : c ≠ old := fun hc => h (hc ▸ List.mem_cons_self _ _)
    have hcs : old ∉ cs := fun hm => h (List.mem_cons_of_mem _ hm)
    simp [replaceFirst, hc, ih hcs]

/-- C7: the string handed to `strconv.ParseFloat` for a row is column 1 with
its first comma replaced by a period and every other character (later commas
included) unchanged; without a comma it is column 1 itself. In particular the
raw weights `1,5` and `1.5` are both parsed as the string `1.5`. -/
theorem C7_comma_normalization (raw : String) :
    (',' ∉ raw.toList → normalizeWeight raw = raw) ∧
    (∀ pre post : List Char, raw.toList = pre ++ ',' :: post → ',' ∉ pre →
      normalizeWeight raw = ⟨pre ++ '.' :: post⟩) ∧
    (∀ (F : Type) (A : Float64Ops F) (t : PanelistMap F) (key : String)
        (feats : List String),
      processLine A t (key :: raw :: feats) =
        match A.parseFloat (normalizeWeight raw) with
        | none => .error (.parseFloat (normalizeWeight raw))
        | some w =>
          .ok (mapSet t key ⟨(mapGet t key).weights ++ [w],
            String.intercalate "\t" feats⟩)) ∧
    normalizeWeight "1,5" = "1.5" ∧ normalizeWeight "1.5" = "1.5" ∧
    normalizeWeight "1,234,5" = "1.234,5" ∧
    (∀ (F : Type) (A : Float64Ops F),
      parsedWeight A ["p", "1,5"] = A.parseFloat "1.5" ∧
      parsedWeight A ["p", "1.5"] = A.parseFloat "1.5") ∧
    exactOps.parseFloat "1.5" = some ⟨15, 10⟩ := by
  refine ⟨?_, ?_, ?_, by decide, by decide, by decide, ?_, by decide⟩
  · intro h
    unfold normalizeWeight
    rw [replaceFirst_of_not_mem _ _ _ h]
    cases raw
    rfl
  · intro pre post hsplit hpre
    unfold normalizeWeight
    rw [hsplit, replaceFirst_append _ _ _ _ hpre]
  · intro F A t key feats
    exact processLine_cons_cons A t key raw feats
  · intro F A
    have h1 : normalizeWeight "1,5" = "1.5" := by decide
    have h2 : normalizeWeight "1.5" = "1.5" := by decide
    simp [parsedWeight, h1, h2]

theorem splitChars_ne_nil (sep : Char) (cs : List Char) : splitChars sep cs ≠ [] := by
  cases cs with
  | nil => simp [splitChars]
  | cons c cs =>
    by_cases h : c = sep
    · simp [splitChars, h]
    · simp only [splitChars, h, if_false]
      cases splitChars sep cs <;> simp

theorem plainCsv_nonEmptyRecords : NonEmptyRecords plainCsv := by
  intro comma text r hr
  simp only [plainCsv, List.mem_map] at hr
  obtain ⟨l, _, rfl⟩ := hr
  simpa using splitChars_ne_nil comma l

/-- C8: in a successful run with at least one processed file, the header line
written first is the header record of the first processed file (no file that
is not skipped has a smaller name), joined by tabs; the headers of the later
files do not enter the output. -/
theorem C8_first_header {F : Type} (A : Float64Ops F) (csv : CsvRead) (flags : Flags)
    (listing : List DirEntry) (out : Output) (first : DirEntry) (rest : List DirEntry)
    (header : List String)
    (hcsv : NonEmptyRecords csv)
    (hrun : main A csv flags listing = .ok out)
    (hfirst : processed listing = first :: rest)
    (hh : headerOf csv first = some header) :
    out.headerLine = String.intercalate "\t" header ∧
    out.text = String.intercalate "\t" header ++ "\n" ++
      String.join (out.rows.map OutRow.text) ∧
    (∀ e ∈ listing, notHidden e = true → less e first = false) := by
  obtain ⟨st, hm, rfl⟩ := main_ok A csv flags listing out hrun
  have hne : header ≠ [] := by
    unfold headerOf openReader at hh
    cases hc : first.content with
    | none => simp [hc] at hh
    | some text =>
      simp only [hc] at hh
      exact hcsv '\t' text header (List.mem_of_mem_head? hh)
  have hhdr := mergeAll_header A csv listing st first rest header hm hfirst hh hne
  have hline : (writeOutput A flags st).headerLine = String.intercalate "\t" header := by
    simp [writeOutput, hhdr]
  refine ⟨hline, ?_, ?_⟩
  · simp only [Output.text, hline]
  · intro e he hv
    have hmem : e ∈ first :: rest := hfirst ▸ (mem_processed listing e).mpr ⟨he, hv⟩
    have hsorted := pairwise_processed listing
    rw [hfirst, List.pairwise_cons] at hsorted
    rcases List.mem_cons.mp hmem with rfl | hmem
    · exact less_irrefl _
    · exact hsorted.1 e hmem

/-- Witness for C8: the header of `day1.tsv` is written although `day2.tsv`,
listed first, has another header. -/
theorem C8_first_header_witness :
    main exactOps plainCsv defaultFlags headerListing =
      .ok ⟨"", "id\twgt\tfeat", [⟨"A", "2.00000", "z"⟩]⟩ ∧
    ((⟨"", "id\twgt\tfeat", [⟨"A", "2.00000", "z"⟩]⟩ : Output).headerLine =
        String.intercalate "\t" ["id", "wgt", "feat"] ∧
      (⟨"", "id\twgt\tfeat", [⟨"A", "2.00000", "z"⟩]⟩ : Output).text =
        String.intercalate "\t" ["id", "wgt", "feat"] ++ "\n" ++
          String.join ((⟨"", "id\twgt\tfeat", [⟨"A", "2.00000", "z"⟩]⟩ : Output).rows.map
            OutRow.text) ∧
      (∀ e ∈ headerListing, notHidden e = true →
        less e ⟨"day1.tsv", some "id\twgt\tfeat\nA\t1,0\tx\n"⟩ = false)) :=
  ⟨by decide,
   C8_first_header exactOps plainCsv defaultFlags headerListing
     ⟨"", "id\twgt\tfeat", [⟨"A", "2.00000", "z"⟩]⟩
     ⟨"day1.tsv", some "id\twgt\tfeat\nA\t1,0\tx\n"⟩
     [⟨"day2.tsv", some "ID\tW\tF\tG\nA\t3,0\tz\n"⟩] ["id", "wgt", "feat"]
     plainCsv_nonEmptyRecords (by decide) (by decide) (by decide)⟩

theorem processed_eq_sortFiles (listing : List DirEntry) :
    processed listing = sortFiles (listing.filter notHidden) := by
  unfold processed
  exact filter_sortFiles _ _

/-- C9: two listings that differ only in entries whose name begins with a dot
give the same result, output or abort, and the same final state, whatever the
dot-prefixed entries contain; in particular a listing gives the result of the
listing with those entries removed, and after a successful file loop `days`
is the number of entries whose name does not begin with a dot. -/
theorem C9_hidden_files_ignored {F : Type} (A : Float64Ops F) (csv : CsvRead)
    (flags : Flags) (listing listing' : List DirEntry)
    (h : listing.filter notHidden = listing'.filter notHidden) :
    main A csv flags listing = main A csv flags listing' ∧
    mergeAll A csv listing = mergeAll A csv listing' ∧
    main A csv flags listing = main A csv flags (listing.filter notHidden) ∧
    ∀ st, mergeAll A csv listing = .ok st →
      st.days = (listing.filter notHidden).length := by
  have hp : processed listing = processed listing' := by
    rw [processed_eq_sortFiles, processed_eq_sortFiles, h]
  have hm : mergeAll A csv listing = mergeAll A csv listing' := by
    rw [mergeAll_eq, mergeAll_eq, hp]
  have hm' : mergeAll A csv listing = mergeAll A csv (listing.filter notHidden) := by
    rw [mergeAll_eq, mergeAll_eq, processed_filter]
  refine ⟨?_, hm, ?_, ?_⟩
  · simp only [main, hm]
  · simp only [main, hm']
  · intro st hst
    rw [(mergeAll_ok A csv listing st hst).2.1, processed_eq_sortFiles, length_sortFiles]

/-- Witness for C9: the scenario with an unparseable and an unopenable
dot-prefixed entry added gives the output of the two day files alone. -/
theorem C9_hidden_files_ignored_witness :
    main exactOps plainCsv defaultFlags hiddenListing = .ok scenarioOutput ∧
    (main exactOps plainCsv defaultFlags hiddenListing =
        main exactOps plainCsv defaultFlags [day2, day1] ∧
      mergeAll exactOps plainCsv hiddenListing = mergeAll exactOps plainCsv [day2, day1] ∧
      main exactOps plainCsv defaultFlags hiddenListing =
        main exactOps plainCsv defaultFlags (hiddenListing.filter notHidden) ∧
      ∀ st, mergeAll exactOps plainCsv hiddenListing = .ok st →
        st.days = (hiddenListing.filter notHidden).length) :=
  ⟨by decide,
   C9_hidden_files_ignored exactOps plainCsv defaultFlags hiddenListing [day2, day1]
     (by decide)⟩

theorem main_flags {F : Type} (A : Float64Ops F) (csv : CsvRead) (flags flags' : Flags)
    (listing : List DirEntry) (h : flags.output = flags'.output) :
    main A csv flags listing = main A csv flags' listing := by
  simp only [main, writeOutput, h]

/-- C4, evaluated with `--sep ,`: a comma-separated file is still split at
tabs only, so its data row has one column and `line[1]` panics; and for a
tab-separated file the header and the row fields are written joined by tabs,
not by commas. -/
theorem C4_sep_not_used :
    main exactOps plainCsv commaFlags commaListing = .error (.indexOutOfRange 1 1) ∧
    main exactOps plainCsv commaFlags tabListing =
      .ok ⟨"out.csv", "id\twgt\tfeat", [⟨"A", "1.00000", "x"⟩]⟩ ∧
    (⟨"out.csv", "id\twgt\tfeat", [⟨"A", "1.00000", "x"⟩]⟩ : Output).text =
      "id\twgt\tfeat\nA\t1.00000\tx\n" ∧
    main exactOps plainCsv commaFlags tabListing =
      main exactOps plainCsv ⟨"tv", "in", "\t", "out.csv"⟩ tabListing := by
  decide

end AggregatePanels
